import Mathlib

/-!
Verification of the Quirk single-qubit operation type (src/src/quop.js): a 2x2
complex matrix value type with construction, equality, display, algebra, and a
rotation-vector-to-unitary conversion. The external Scalar collaborator
(complex.js) is not part of the sources; it is modelled from the spec's
contract (spec section 6) as standard complex arithmetic on pairs of reals.
-/

namespace Quirk

/-- Modelled from the spec: the external Scalar collaborator (complex.js is not
under src/). A complex number with real and imaginary parts; immutable value
type (spec sections 3 and 6). -/
@[ext]
structure Cpx where
  re : ℝ
  im : ℝ

/-- Modelled from the spec: Scalar construction from a real number. -/
def Cpx.fromReal (r : ℝ) : Cpx := ⟨r, 0⟩

/-- Modelled from the spec: Scalar conjugation. -/
def Cpx.conjugate (c : Cpx) : Cpx := ⟨c.re, -c.im⟩

/-- Modelled from the spec: Scalar addition. -/
def Cpx.plus (c d : Cpx) : Cpx := ⟨c.re + d.re, c.im + d.im⟩

/-- Modelled from the spec: Scalar subtraction, consumed by the matrix minus. -/
def Cpx.minus (c d : Cpx) : Cpx := ⟨c.re - d.re, c.im - d.im⟩

/-- Modelled from the spec: Scalar multiplication. -/
def Cpx.times (c d : Cpx) : Cpx :=
  ⟨c.re * d.re - c.im * d.im, c.re * d.im + c.im * d.re⟩

/-- Modelled from the spec: Scalar structural equality; on two Scalars it is
componentwise equality of real and imaginary parts. -/
def Cpx.isEqualTo (c d : Cpx) : Prop := c.re = d.re ∧ c.im = d.im

/-- A single-qubit quantum operation, represented as a 2x2 matrix
[[a, b], [c, d]] of Scalars (function Quop in src/src/quop.js). -/
@[ext]
structure Quop where
  a : Cpx
  b : Cpx
  c : Cpx
  d : Cpx

/-- Structural equality of two operations: all four entries equal
(Quop.prototype.isEqualTo restricted to two Quop arguments). -/
def Quop.isEqualTo (m n : Quop) : Prop :=
  m.a = n.a ∧ m.b = n.b ∧ m.c = n.c ∧ m.d = n.d

/-- Conjugate transpose (Quop.prototype.adjoint). -/
def Quop.adjoint (m : Quop) : Quop :=
  ⟨m.a.conjugate, m.c.conjugate, m.b.conjugate, m.d.conjugate⟩

/-- Scaling every entry by a scalar factor (Quop.prototype.scaledBy); a real
factor enters through Cpx.fromReal. -/
def Quop.scaledBy (m : Quop) (v : Cpx) : Quop :=
  ⟨m.a.times v, m.b.times v, m.c.times v, m.d.times v⟩

/-- Entrywise sum (Quop.prototype.plus). -/
def Quop.plus (m n : Quop) : Quop :=
  ⟨m.a.plus n.a, m.b.plus n.b, m.c.plus n.c, m.d.plus n.d⟩

/-- Entrywise difference (Quop.prototype.minus). -/
def Quop.minus (m n : Quop) : Quop :=
  ⟨m.a.minus n.a, m.b.minus n.b, m.c.minus n.c, m.d.minus n.d⟩

/-- Matrix product, receiver on the left (Quop.prototype.times). -/
def Quop.times (m n : Quop) : Quop :=
  ⟨(m.a.times n.a).plus (m.b.times n.c), (m.a.times n.b).plus (m.b.times n.d),
   (m.c.times n.a).plus (m.d.times n.c), (m.c.times n.b).plus (m.d.times n.d)⟩

/-- The Quop.IDENTITY constant. -/
def Quop.IDENTITY : Quop :=
  ⟨Cpx.fromReal 1, Cpx.fromReal 0, Cpx.fromReal 0, Cpx.fromReal 1⟩

/-- The Quop.PAULI_X constant. -/
def Quop.PAULI_X : Quop :=
  ⟨Cpx.fromReal 0, Cpx.fromReal 1, Cpx.fromReal 1, Cpx.fromReal 0⟩

/-- The Quop.PAULI_Y constant. -/
def Quop.PAULI_Y : Quop :=
  ⟨Cpx.fromReal 0, Cpx.mk 0 (-1), Cpx.mk 0 1, Cpx.fromReal 0⟩

/-- The Quop.PAULI_Z constant. -/
def Quop.PAULI_Z : Quop :=
  ⟨Cpx.fromReal 1, Cpx.fromReal 0, Cpx.fromReal 0, Cpx.fromReal (-1)⟩

/-- Interpretation of the modelled Scalar type into Mathlib's complex numbers,
used to state that the matrix algebra is the standard one. -/
def Cpx.toC (c : Cpx) : ℂ := ⟨c.re, c.im⟩

/-- Interpretation of an operation as a standard 2x2 complex matrix. -/
def Quop.toMatrix (m : Quop) : Matrix (Fin 2) (Fin 2) ℂ :=
  Matrix.of fun i j =>
    if i = 0 then (if j = 0 then m.a.toC else m.b.toC)
    else (if j = 0 then m.c.toC else m.d.toC)

theorem Cpx.toC_times (c d : Cpx) : (c.times d).toC = c.toC * d.toC := by
  simp only [Cpx.times, Cpx.toC]
  apply Complex.ext <;> simp [Complex.mul_re, Complex.mul_im]

theorem Cpx.toC_plus (c d : Cpx) : (c.plus d).toC = c.toC + d.toC := by
  simp only [Cpx.plus, Cpx.toC]
  apply Complex.ext <;> simp

theorem Cpx.toC_injective : Function.Injective Cpx.toC := by
  intro c d h
  simp only [Cpx.toC, Complex.mk.injEq] at h
  exact Cpx.ext h.1 h.2

/-- A JavaScript value that may be handed to isEqualTo: an operation, a plain
number, or a nullish value (the foreign cases the spec calls out). -/
inductive JSVal where
  | quop (q : Quop)
  | num (r : ℝ)
  | nullish

/-- Quop.prototype.isEqualTo on an arbitrary argument: the instanceof guard
makes every non-Quop argument compare unequal instead of raising. -/
def Quop.isEqualToVal (m : Quop) (other : JSVal) : Prop :=
  match other with
  | .quop n => m.a.isEqualTo n.a ∧ m.b.isEqualTo n.b ∧ m.c.isEqualTo n.c ∧ m.d.isEqualTo n.d
  | _ => False

/-- C4: times is the standard 2x2 matrix product in this-compose-other order:
under the interpretation into Mathlib matrices, the entry formulas
a*e+b*g, a*f+b*h, c*e+d*g, c*f+d*h compute exactly toMatrix m * toMatrix n
with the receiver on the left. -/
theorem times_is_standard_matrix_product (m n : Quop) :
    (m.times n).toMatrix = m.toMatrix * n.toMatrix ∧
    (m.times n).a = (m.a.times n.a).plus (m.b.times n.c) ∧
    (m.times n).b = (m.a.times n.b).plus (m.b.times n.d) ∧
    (m.times n).c = (m.c.times n.a).plus (m.d.times n.c) ∧
    (m.times n).d = (m.c.times n.b).plus (m.d.times n.d) := by
  refine ⟨?_, rfl, rfl, rfl, rfl⟩
  ext i j
  fin_cases i <;> fin_cases j <;>
    simp [Quop.toMatrix, Quop.times, Matrix.mul_apply, Fin.sum_univ_two,
      Cpx.toC_times, Cpx.toC_plus]

/-- C5: the Pauli constants do not commute: X times Y is i times Z, Y times X
is negative i times Z, and the two products differ. -/
theorem pauli_product_noncommutative :
    Quop.PAULI_X.times Quop.PAULI_Y = Quop.PAULI_Z.scaledBy (Cpx.mk 0 1) ∧
    Quop.PAULI_Y.times Quop.PAULI_X = Quop.PAULI_Z.scaledBy (Cpx.mk 0 (-1)) ∧
    ¬ (Quop.PAULI_X.times Quop.PAULI_Y).isEqualTo (Quop.PAULI_Y.times Quop.PAULI_X) := by
  refine ⟨?_, ?_, ?_⟩
  · ext <;>
      simp [Quop.times, Quop.scaledBy, Quop.PAULI_X, Quop.PAULI_Y, Quop.PAULI_Z,
        Cpx.times, Cpx.plus, Cpx.fromReal]
  · ext <;>
      simp [Quop.times, Quop.scaledBy, Quop.PAULI_X, Quop.PAULI_Y, Quop.PAULI_Z,
        Cpx.times, Cpx.plus, Cpx.fromReal]
  · intro h
    have ha := h.1
    simp [Quop.times, Quop.PAULI_X, Quop.PAULI_Y, Cpx.times, Cpx.plus,
      Cpx.fromReal, Cpx.mk.injEq] at ha
    norm_num at ha

/-- C7: isEqualTo returns false, without raising, for every non-operation
argument (a plain number or a nullish value), and between two operations it
holds exactly when all four corresponding entries are structurally equal. -/
theorem isEqualTo_foreign_and_structural (m : Quop) (r : ℝ) :
    (¬ m.isEqualToVal (JSVal.num r)) ∧ (¬ m.isEqualToVal JSVal.nullish) ∧
    (∀ n : Quop, m.isEqualToVal (JSVal.quop n) ↔
      (m.a = n.a ∧ m.b = n.b ∧ m.c = n.c ∧ m.d = n.d)) := by
  refine ⟨fun h => h, fun h => h, fun n => ?_⟩
  simp only [Quop.isEqualToVal, Cpx.isEqualTo]
  constructor
  · rintro ⟨⟨a1, a2⟩, ⟨b1, b2⟩, ⟨c1, c2⟩, ⟨d1, d2⟩⟩
    exact ⟨Cpx.ext a1 a2, Cpx.ext b1 b2, Cpx.ext c1 c2, Cpx.ext d1 d2⟩
  · rintro ⟨ha, hb, hc, hd⟩
    rw [ha, hb, hc, hd]
    exact ⟨⟨rfl, rfl⟩, ⟨rfl, rfl⟩, ⟨rfl, rfl⟩, ⟨rfl, rfl⟩⟩

/-- C7 witness: the identity operation compares unequal to the plain number 3. -/
theorem isEqualTo_foreign_and_structural_witness :
    ¬ Quop.IDENTITY.isEqualToVal (JSVal.num 3) :=
  (isEqualTo_foreign_and_structural Quop.IDENTITY 3).1

/-- C8: the adjoint (conjugate transpose) is an involution: applying it twice
to an arbitrary operation gives back an operation structurally equal to the
original. -/
theorem adjoint_involution (m : Quop) : (m.adjoint.adjoint).isEqualTo m := by
  refine ⟨?_, ?_, ?_, ?_⟩ <;> (ext <;> simp [Quop.adjoint, Cpx.conjugate])

/-- C10: each Pauli constant squares to the identity and equals its own
adjoint (Hermitian and unitary). -/
theorem pauli_self_inverse_hermitian :
    Quop.PAULI_X.times Quop.PAULI_X = Quop.IDENTITY ∧
    Quop.PAULI_Y.times Quop.PAULI_Y = Quop.IDENTITY ∧
    Quop.PAULI_Z.times Quop.PAULI_Z = Quop.IDENTITY ∧
    Quop.PAULI_X.adjoint = Quop.PAULI_X ∧
    Quop.PAULI_Y.adjoint = Quop.PAULI_Y ∧
    Quop.PAULI_Z.adjoint = Quop.PAULI_Z := by
  refine ⟨?_, ?_, ?_, ?_, ?_, ?_⟩ <;>
    (ext <;>
      simp [Quop.times, Quop.adjoint, Quop.IDENTITY, Quop.PAULI_X, Quop.PAULI_Y,
        Quop.PAULI_Z, Cpx.times, Cpx.plus, Cpx.conjugate, Cpx.fromReal])

/-- An element of a coefficient sequence handed to Quop.from: a real number, a
Scalar, or a value of neither kind. -/
inductive CoefVal where
  | num (r : ℝ)
  | scalar (c : Cpx)
  | other

/-- Modelled from the spec: Complex.from (complex.js is not under src/):
converts a real number or a Scalar to a Scalar and fails on anything else. -/
def Cpx.fromVal : CoefVal → Except String Cpx
  | .num r => .ok (Cpx.fromReal r)
  | .scalar c => .ok c
  | .other => .error "InvalidArgument"

/-- The Scalar a convertible element converts to (the value Cpx.fromVal
returns on the non-failing cases). -/
def Cpx.valOf : CoefVal → Cpx
  | .num r => Cpx.fromReal r
  | .scalar c => c
  | .other => Cpx.fromReal 0

/-- Quop.from on an array: rejects any length other than 4, otherwise converts
the four elements in a-b-c-d order, propagating a conversion failure. -/
def Quop.fromSeq (coefs : List CoefVal) : Except String Quop :=
  match coefs with
  | [c0, c1, c2, c3] => do
      let a ← Cpx.fromVal c0
      let b ← Cpx.fromVal c1
      let c ← Cpx.fromVal c2
      let d ← Cpx.fromVal c3
      pure ⟨a, b, c, d⟩
  | _ => .error "Wrong number of coefficients"

theorem Cpx.fromVal_ok (v : CoefVal) (hv : v ≠ CoefVal.other) :
    Cpx.fromVal v = .ok (Cpx.valOf v) := by
  cases v with
  | num r => rfl
  | scalar c => rfl
  | other => exact absurd rfl hv

/-- C6: converting a coefficient sequence succeeds exactly when the sequence
has length 4 and every element is a real number or a Scalar; on success the
entries are the converted elements in a-b-c-d order, and otherwise an
InvalidArgument-style error is raised. -/
theorem fromSeq_ok_iff (l : List CoefVal) :
    ((∃ q, Quop.fromSeq l = .ok q) ↔
      (l.length = 4 ∧ ∀ v ∈ l, v ≠ CoefVal.other)) ∧
    (∀ c0 c1 c2 c3 : CoefVal, l = [c0, c1, c2, c3] →
      (∀ v ∈ l, v ≠ CoefVal.other) →
      Quop.fromSeq l =
        .ok ⟨Cpx.valOf c0, Cpx.valOf c1, Cpx.valOf c2, Cpx.valOf c3⟩) ∧
    ((l.length ≠ 4 ∨ ∃ v ∈ l, v = CoefVal.other) → ∃ msg, Quop.fromSeq l = .error msg) := by
  have hmain : ∀ c0 c1 c2 c3 : CoefVal,
      (c0 ≠ CoefVal.other ∧ c1 ≠ CoefVal.other ∧ c2 ≠ CoefVal.other ∧ c3 ≠ CoefVal.other) →
      Quop.fromSeq [c0, c1, c2, c3] =
        .ok ⟨Cpx.valOf c0, Cpx.valOf c1, Cpx.valOf c2, Cpx.valOf c3⟩ := by
    rintro c0 c1 c2 c3 ⟨h0, h1, h2, h3⟩
    simp [Quop.fromSeq, Cpx.fromVal_ok c0 h0, Cpx.fromVal_ok c1 h1,
      Cpx.fromVal_ok c2 h2, Cpx.fromVal_ok c3 h3, Bind.bind, Except.bind,
      Pure.pure, Except.pure]
  have fromVal_ne : ∀ (v : CoefVal) (a : Cpx),
      Cpx.fromVal v = .ok a → v ≠ CoefVal.other := by
    intro v a h hv
    subst hv
    simp [Cpx.fromVal] at h
  have hnoother : ∀ c0 c1 c2 c3 : CoefVal, ∀ q : Quop,
      Quop.fromSeq [c0, c1, c2, c3] = .ok q →
      (c0 ≠ CoefVal.other ∧ c1 ≠ CoefVal.other ∧ c2 ≠ CoefVal.other ∧ c3 ≠ CoefVal.other) := by
    intro c0 c1 c2 c3 q hq
    simp only [Quop.fromSeq, Bind.bind, Except.bind] at hq
    rcases h0 : Cpx.fromVal c0 with m0 | a0
    · simp [h0] at hq
    simp only [h0] at hq
    rcases h1 : Cpx.fromVal c1 with m1 | a1
    · simp [h1] at hq
    simp only [h1] at hq
    rcases h2 : Cpx.fromVal c2 with m2 | a2
    · simp [h2] at hq
    simp only [h2] at hq
    rcases h3 : Cpx.fromVal c3 with m3 | a3
    · simp [h3] at hq
    exact ⟨fromVal_ne _ _ h0, fromVal_ne _ _ h1, fromVal_ne _ _ h2, fromVal_ne _ _ h3⟩
  have hok : (∃ q, Quop.fromSeq l = .ok q) ↔
      (l.length = 4 ∧ ∀ v ∈ l, v ≠ CoefVal.other) := by
    constructor
    · rintro ⟨q, hq⟩
      match l with
      | [c0, c1, c2, c3] =>
        obtain ⟨h0, h1, h2, h3⟩ := hnoother c0 c1 c2 c3 q hq
        refine ⟨rfl, ?_⟩
        intro v hv
        simp only [List.mem_cons, List.not_mem_nil, or_false] at hv
        rcases hv with rfl | rfl | rfl | rfl <;> assumption
      | [] => simp [Quop.fromSeq] at hq
      | [c0] => simp [Quop.fromSeq] at hq
      | [c0, c1] => simp [Quop.fromSeq] at hq
      | [c0, c1, c2] => simp [Quop.fromSeq] at hq
      | c0 :: c1 :: c2 :: c3 :: c4 :: rest => simp [Quop.fromSeq] at hq
    · rintro ⟨hlen, hconv⟩
      match l with
      | [c0, c1, c2, c3] =>
        refine ⟨_, hmain c0 c1 c2 c3 ⟨?_, ?_, ?_, ?_⟩⟩ <;>
          (apply hconv; simp)
  refine ⟨hok, ?_, ?_⟩
  · rintro c0 c1 c2 c3 rfl hconv
    exact hmain c0 c1 c2 c3
      ⟨hconv c0 (by simp), hconv c1 (by simp), hconv c2 (by simp), hconv c3 (by simp)⟩
  · intro hbad
    rcases h : Quop.fromSeq l with msg | q
    · exact ⟨msg, rfl⟩
    · exfalso
      have := hok.1 ⟨q, h⟩
      rcases hbad with hlen | ⟨v, hv, hvo⟩
      · exact hlen this.1
      · exact this.2 v hv hvo

/-- C6 witness: the sequence of reals 1, 0, 0, 1 has length 4, every element
converts, and the conversion yields the entries in a-b-c-d order. -/
theorem fromSeq_ok_iff_witness :
    Quop.fromSeq [CoefVal.num 1, CoefVal.num 0, CoefVal.num 0, CoefVal.num 1] =
      .ok ⟨Cpx.fromReal 1, Cpx.fromReal 0, Cpx.fromReal 0, Cpx.fromReal 1⟩ :=
  (fromSeq_ok_iff [CoefVal.num 1, CoefVal.num 0, CoefVal.num 0, CoefVal.num 1]).2.1
    (CoefVal.num 1) (CoefVal.num 0) (CoefVal.num 0) (CoefVal.num 1) rfl
    (by intro v hv; fin_cases hv <;> simp)

/-- Quop.prototype.toString: the nested-brace rendering, parameterized by the
external Scalar display form disp (complex.js is not under src/, so the spec's
Scalar toDisplayString is kept abstract). -/
def Quop.toDisplayString (disp : Cpx → String) (m : Quop) : String :=
  "\x7b\x7b" ++ disp m.a ++ ", " ++ disp m.b ++ "\x7d, \x7b" ++
    disp m.c ++ ", " ++ disp m.d ++ "\x7d\x7d"

/-- The spec's independent description of the format: each row is its entries
joined by comma-space inside literal braces, and the matrix is the two rows
joined by comma-space inside literal braces. -/
def bracedRow (xs : List String) : String :=
  "\x7b" ++ String.intercalate ", " xs ++ "\x7d"

/-- The nested-brace matrix notation described by the spec. -/
def specNestedBraces (disp : Cpx → String) (m : Quop) : String :=
  bracedRow [bracedRow [disp m.a, disp m.b], bracedRow [disp m.c, disp m.d]]

/-- C9: the display string is exactly the spec's nested-brace form with
literal braces and comma-space separators around each entry's own scalar
display form; with a scalar display that renders real 1 as "1" and real 0 as
"0", the identity renders as the exact literal the spec pins down. -/
theorem toDisplayString_format (disp : Cpx → String) (m : Quop) :
    Quop.toDisplayString disp m = specNestedBraces disp m ∧
    (disp (Cpx.fromReal 1) = "1" → disp (Cpx.fromReal 0) = "0" →
      Quop.toDisplayString disp Quop.IDENTITY = "\x7b\x7b1, 0\x7d, \x7b0, 1\x7d\x7d") := by
  constructor
  · have hpair : ∀ s x y : String, String.intercalate s [x, y] = x ++ s ++ y :=
      fun s x y => rfl
    simp only [Quop.toDisplayString, specNestedBraces, bracedRow, hpair]
    apply String.ext
    simp [String.data_append]
  · intro h1 h0
    simp only [Quop.toDisplayString, Quop.IDENTITY, h1, h0]
    rfl

/-- C9 witness: applying the format theorem to the identity with a concrete
scalar display form that maps real 1 to "1" and real 0 to "0". -/
theorem toDisplayString_format_witness :
    (fun c : Cpx => if c.re = 1 then "1" else "0") (Cpx.fromReal 1) = "1" ∧
    (fun c : Cpx => if c.re = 1 then "1" else "0") (Cpx.fromReal 0) = "0" ∧
    Quop.toDisplayString (fun c : Cpx => if c.re = 1 then "1" else "0") Quop.IDENTITY =
      "\x7b\x7b1, 0\x7d, \x7b0, 1\x7d\x7d" := by
  refine ⟨by simp [Cpx.fromReal], by norm_num [Cpx.fromReal], ?_⟩
  exact (toDisplayString_format (fun c : Cpx => if c.re = 1 then "1" else "0")
    Quop.IDENTITY).2 (by simp [Cpx.fromReal]) (by norm_num [Cpx.fromReal])

open Real in
/-- The sinc helper inside Quop.fromRotation: a second-order Taylor series
below the 0.0002 cutoff, sin t / t elsewhere. -/
noncomputable def sinc (t : ℝ) : ℝ :=
  if |t| < 0.0002 then 1 - t * t / 6 else Real.sin t / t

open Real in
/-- Quop.fromRotation: converts an [x, y, z] rotation vector to the
corresponding operation (src/src/quop.js). -/
noncomputable def Quop.fromRotation (v : ℝ × ℝ × ℝ) : Quop :=
  let x := v.1 * π * 2
  let y := v.2.1 * π * 2
  let z := v.2.2 * π * 2
  let s : ℝ := if -11 * x + -13 * y + -17 * z ≥ 0 then 1 else -1
  let theta := Real.sqrt (x * x + y * y + z * z)
  let sigma_v := ((Quop.PAULI_X.scaledBy (Cpx.fromReal x)).plus
                  (Quop.PAULI_Y.scaledBy (Cpx.fromReal y))).plus
                  (Quop.PAULI_Z.scaledBy (Cpx.fromReal z))
  let ci := (Cpx.mk (1 + Real.cos (s * theta)) (Real.sin (s * theta))).times
    (Cpx.fromReal 0.5)
  let cv := (Cpx.mk (Real.sin (theta / 2) * sinc (theta / 2)) (-s * sinc theta)).times
    (Cpx.fromReal (s * 0.5))
  (Quop.IDENTITY.scaledBy ci).minus (sigma_v.scaledBy cv)

open Real in
/-- The spec's reference algorithm for the rotation-vector conversion, written
step by step from the spec's own wording (steps 1 through 7 of section 4.4). -/
noncomputable def fromRotationVectorSpec (v : ℝ × ℝ × ℝ) : Quop :=
  let xp := 2 * π * v.1
  let yp := 2 * π * v.2.1
  let zp := 2 * π * v.2.2
  let theta := Real.sqrt (xp ^ 2 + yp ^ 2 + zp ^ 2)
  let s : ℝ := if -11 * xp - 13 * yp - 17 * zp ≥ 0 then 1 else -1
  let sigma_v := ((Quop.PAULI_X.scaledBy (Cpx.fromReal xp)).plus
                  (Quop.PAULI_Y.scaledBy (Cpx.fromReal yp))).plus
                  (Quop.PAULI_Z.scaledBy (Cpx.fromReal zp))
  let cIdentity := (Cpx.fromReal 0.5).times
    (Cpx.mk (1 + Real.cos (s * theta)) (Real.sin (s * theta)))
  let cAxis := (Cpx.fromReal (s * 0.5)).times
    (Cpx.mk (Real.sin (theta / 2) * sinc (theta / 2)) (-s * sinc theta))
  (Quop.IDENTITY.scaledBy cIdentity).minus (sigma_v.scaledBy cAxis)

/-- C1: for every real 3-vector the code's rotation conversion returns exactly
the matrix of the spec's reference algorithm; both sides are total functions
over the reals, so no error is raised for any finite input. -/
theorem fromRotation_eq_spec (v : ℝ × ℝ × ℝ) :
    Quop.fromRotation v = fromRotationVectorSpec v := by
  obtain ⟨vx, vy, vz⟩ := v
  simp only [Quop.fromRotation, fromRotationVectorSpec]
  have hx : vx * Real.pi * 2 = 2 * Real.pi * vx := by ring
  have hy : vy * Real.pi * 2 = 2 * Real.pi * vy := by ring
  have hz : vz * Real.pi * 2 = 2 * Real.pi * vz := by ring
  have harg : vx * Real.pi * 2 * (vx * Real.pi * 2) + vy * Real.pi * 2 * (vy * Real.pi * 2) +
      vz * Real.pi * 2 * (vz * Real.pi * 2) =
      (2 * Real.pi * vx) ^ 2 + (2 * Real.pi * vy) ^ 2 + (2 * Real.pi * vz) ^ 2 := by ring
  have hcond : (-11 * (vx * Real.pi * 2) + -13 * (vy * Real.pi * 2) + -17 * (vz * Real.pi * 2)) =
      (-11 * (2 * Real.pi * vx) - 13 * (2 * Real.pi * vy) - 17 * (2 * Real.pi * vz)) := by ring
  rw [hcond, harg]
  set s : ℝ := if -11 * (2 * Real.pi * vx) - 13 * (2 * Real.pi * vy) -
      17 * (2 * Real.pi * vz) ≥ 0 then (1 : ℝ) else -1 with hs
  rw [hx, hy, hz]
  ext <;>
    simp only [Quop.scaledBy, Quop.plus, Quop.minus, Quop.IDENTITY, Quop.PAULI_X,
      Quop.PAULI_Y, Quop.PAULI_Z, Cpx.times, Cpx.plus, Cpx.minus, Cpx.fromReal] <;>
    ring

/-- C2: the zero rotation vector maps to the identity: the sign linear form
evaluates to 0 and the greater-or-equal test classifies it as s = 1, sinc
takes its series branch at 0, and the resulting matrix equals (and compares
isEqualTo) the Identity constant. -/
theorem fromRotation_zero_eq_identity :
    Quop.fromRotation (0, 0, 0) = Quop.IDENTITY ∧
    (Quop.fromRotation (0, 0, 0)).isEqualTo Quop.IDENTITY := by
  have hzero : Quop.fromRotation (0, 0, 0) = Quop.IDENTITY := by
    simp only [Quop.fromRotation]
    norm_num
    have hs : sinc 0 = 1 := by norm_num [sinc]
    rw [hs]
    ext <;>
      simp [Quop.scaledBy, Quop.plus, Quop.minus, Quop.IDENTITY, Quop.PAULI_X,
        Quop.PAULI_Y, Quop.PAULI_Z, Cpx.times, Cpx.plus, Cpx.minus, Cpx.fromReal]
  exact ⟨hzero, by rw [hzero]; exact ⟨rfl, rfl, rfl, rfl⟩⟩

/-- The coefficient sin(t/2)*sinc(t/2) appearing in the axis scalar of the
rotation conversion. -/
noncomputable def pCoef (t : ℝ) : ℝ := Real.sin (t / 2) * sinc (t / 2)

/-- The coefficient sinc(t) appearing in the axis scalar of the rotation
conversion. -/
noncomputable def qCoef (t : ℝ) : ℝ := sinc t

/-- Diagonal deviation of fromRotation(v) times its adjoint from the identity:
the common real diagonal defect. -/
noncomputable def Adev (t : ℝ) : ℝ :=
  (1 + Real.cos t) ^ 2 / 4 + Real.sin t ^ 2 / 4 +
    t ^ 2 * (pCoef t ^ 2 + qCoef t ^ 2) / 4 - 1

/-- Cross-term deviation of fromRotation(v) times its adjoint from the
identity: the coefficient of the Pauli part of the defect. -/
noncomputable def Bdev (t : ℝ) : ℝ :=
  ((1 + Real.cos t) * pCoef t - Real.sin t * qCoef t) / 2

theorem sinc_err (t : ℝ) (h0 : 0 < t) (h1 : t ≤ 1) :
    |sinc t - Real.sin t / t| ≤ t ^ 3 := by
  have ht : t ≠ 0 := ne_of_gt h0
  unfold sinc
  by_cases hb : |t| < 0.0002
  · rw [if_pos hb]
    have hsb := Real.sin_bound (x := t) (by rw [abs_of_pos h0]; linarith)
    rw [abs_sub_comm] at hsb
    have hrw : 1 - t * t / 6 - Real.sin t / t = (t - t ^ 3 / 6 - Real.sin t) / t := by
      field_simp
      ring
    rw [hrw, abs_div, abs_of_pos h0]
    rw [abs_of_pos h0] at hsb
    calc |t - t ^ 3 / 6 - Real.sin t| / t ≤ t ^ 4 * (5 / 96) / t := by gcongr
      _ = t ^ 3 * (5 / 96) := by field_simp; ring
      _ ≤ t ^ 3 := by nlinarith [pow_pos h0 3]
  · rw [if_neg hb]
    simp [sub_self]
    positivity

theorem sin_half_sq (t : ℝ) : Real.sin (t / 2) ^ 2 = (1 - Real.cos t) / 2 := by
  have h1 := Real.sin_sq (t / 2)
  have h2 := Real.cos_sq (t / 2)
  rw [show 2 * (t / 2) = t by ring] at h2
  linarith

theorem one_sub_cos_le (t : ℝ) : 1 - Real.cos t ≤ t ^ 2 / 2 := by
  have h1 := sin_half_sq t
  have h2 : Real.sin (t / 2) ^ 2 ≤ (t / 2) ^ 2 := by
    rw [← sq_abs (Real.sin (t / 2)), ← sq_abs (t / 2)]
    exact pow_le_pow_left₀ (abs_nonneg _) (Real.abs_sin_le_abs (x := t / 2)) 2
  nlinarith

theorem pCoef_exact (t : ℝ) (h : 0.0004 ≤ t) : pCoef t = (1 - Real.cos t) / t := by
  have ht : t ≠ 0 := by linarith
  unfold pCoef sinc
  rw [if_neg (by rw [abs_of_pos (by linarith : (0:ℝ) < t / 2)]; linarith)]
  rw [show Real.sin (t / 2) * (Real.sin (t / 2) / (t / 2)) = Real.sin (t / 2) ^ 2 / (t / 2)
    by ring, sin_half_sq]
  field_simp

theorem qCoef_exact (t : ℝ) (h : 0.0002 ≤ t) : qCoef t = Real.sin t / t := by
  unfold qCoef sinc
  rw [if_neg (by rw [abs_of_pos (by linarith : (0:ℝ) < t)]; linarith)]

theorem Adev_exact (t : ℝ) (h : 0.0004 ≤ t) : Adev t = 0 := by
  have ht : t ≠ 0 := by linarith
  have hpy := Real.sin_sq_add_cos_sq t
  unfold Adev
  rw [pCoef_exact t h, qCoef_exact t (by linarith)]
  field_simp
  linear_combination (2 : ℝ) * hpy

theorem Bdev_exact (t : ℝ) (h : 0.0004 ≤ t) : Bdev t = 0 := by
  have ht : t ≠ 0 := by linarith
  have hpy := Real.sin_sq_add_cos_sq t
  unfold Bdev
  rw [pCoef_exact t h, qCoef_exact t (by linarith)]
  field_simp
  linear_combination (-1 : ℝ) * hpy

theorem pCoef_err (t : ℝ) (h0 : 0 < t) (h1 : t < 0.0004) :
    |pCoef t - (1 - Real.cos t) / t| ≤ t ^ 3 := by
  have ht : t ≠ 0 := ne_of_gt h0
  have hhalf : 0 < t / 2 := by linarith
  have herr := sinc_err (t / 2) hhalf (by linarith)
  have hexact : Real.sin (t / 2) * (Real.sin (t / 2) / (t / 2)) = (1 - Real.cos t) / t := by
    rw [show Real.sin (t / 2) * (Real.sin (t / 2) / (t / 2)) = Real.sin (t / 2) ^ 2 / (t / 2)
      by ring, sin_half_sq]
    field_simp
  have hsin : |Real.sin (t / 2)| ≤ t / 2 := by
    have h := Real.abs_sin_le_abs (x := t / 2)
    rwa [abs_of_pos hhalf] at h
  calc |pCoef t - (1 - Real.cos t) / t|
      = |Real.sin (t / 2)| * |sinc (t / 2) - Real.sin (t / 2) / (t / 2)| := by
        rw [← abs_mul]
        congr 1
        rw [← hexact]
        unfold pCoef
        ring
    _ ≤ (t / 2) * (t / 2) ^ 3 := by
        apply mul_le_mul hsin herr (abs_nonneg _) (by linarith)
    _ ≤ t ^ 3 := by
        have h16 : t ≤ 16 := by linarith
        nlinarith [pow_nonneg h0.le 3, h16]

theorem qCoef_err (t : ℝ) (h0 : 0 < t) (h1 : t < 0.0004) :
    |qCoef t - Real.sin t / t| ≤ t ^ 3 :=
  sinc_err t h0 (by linarith)

theorem polyA_bound (t c n ep eq : ℝ) (hpos : 0 < t) (ht1 : t ≤ 1)
    (hc1 : -1 ≤ c) (hc2 : c ≤ 1) (hn1 : -1 ≤ n) (hn2 : n ≤ 1)
    (hεp1 : -t ^ 3 ≤ ep) (hεp2 : ep ≤ t ^ 3)
    (hεq1 : -t ^ 3 ≤ eq) (hεq2 : eq ≤ t ^ 3) :
    |(2 * t * (1 - c) * ep + 2 * t * n * eq + t ^ 2 * ep ^ 2 + t ^ 2 * eq ^ 2) / 4|
      ≤ 2 * t ^ 4 := by
  have ht3 : (0:ℝ) ≤ t ^ 3 := by positivity
  have ht4 : (0:ℝ) ≤ t ^ 4 := by positivity
  have ht14 : t ^ 4 ≤ 1 := pow_le_one₀ hpos.le ht1
  have k1 : 0 ≤ t * ((1 - c) * (t ^ 3 - ep)) :=
    mul_nonneg hpos.le (mul_nonneg (by linarith) (by linarith))
  have k2 : 0 ≤ t * ((1 - c) * (t ^ 3 + ep)) :=
    mul_nonneg hpos.le (mul_nonneg (by linarith) (by linarith))
  have k3 : 0 ≤ t * ((1 - n) * (t ^ 3 - eq)) :=
    mul_nonneg hpos.le (mul_nonneg (by linarith) (by linarith))
  have k4 : 0 ≤ t * ((1 - n) * (t ^ 3 + eq)) :=
    mul_nonneg hpos.le (mul_nonneg (by linarith) (by linarith))
  have k5 : 0 ≤ t * ((1 + n) * (t ^ 3 - eq)) :=
    mul_nonneg hpos.le (mul_nonneg (by linarith) (by linarith))
  have k6 : 0 ≤ t * ((1 + n) * (t ^ 3 + eq)) :=
    mul_nonneg hpos.le (mul_nonneg (by linarith) (by linarith))
  have k7 : 0 ≤ t ^ 4 * (1 + c) := mul_nonneg ht4 (by linarith)
  have k8 : 0 ≤ t ^ 2 * ((t ^ 3 - ep) * (t ^ 3 + ep)) :=
    mul_nonneg (sq_nonneg t) (mul_nonneg (by linarith) (by linarith))
  have k9 : 0 ≤ t ^ 2 * ((t ^ 3 - eq) * (t ^ 3 + eq)) :=
    mul_nonneg (sq_nonneg t) (mul_nonneg (by linarith) (by linarith))
  have k10 : 0 ≤ t ^ 4 * (1 - t ^ 4) := mul_nonneg ht4 (by linarith)
  rw [abs_le]
  constructor
  · nlinarith [k2, k4, k5, k7, mul_nonneg (sq_nonneg t) (sq_nonneg ep),
      mul_nonneg (sq_nonneg t) (sq_nonneg eq)]
  · nlinarith [k1, k3, k6, k7, k8, k9, k10]

theorem polyB_bound (t c n ep eq : ℝ) (hpos : 0 < t)
    (hc1 : -1 ≤ c) (hc2 : c ≤ 1) (hn1 : -1 ≤ n) (hn2 : n ≤ 1)
    (hεp1 : -t ^ 3 ≤ ep) (hεp2 : ep ≤ t ^ 3)
    (hεq1 : -t ^ 3 ≤ eq) (hεq2 : eq ≤ t ^ 3) :
    |((1 + c) * ep - n * eq) / 2| ≤ 2 * t ^ 3 := by
  have ht3 : (0:ℝ) ≤ t ^ 3 := by positivity
  have l1 : 0 ≤ (1 + c) * (t ^ 3 - ep) := mul_nonneg (by linarith) (by linarith)
  have l2 : 0 ≤ (1 + c) * (t ^ 3 + ep) := mul_nonneg (by linarith) (by linarith)
  have l3 : 0 ≤ t ^ 3 * (1 - c) := mul_nonneg ht3 (by linarith)
  have l4 : 0 ≤ (1 - n) * (t ^ 3 - eq) := mul_nonneg (by linarith) (by linarith)
  have l5 : 0 ≤ (1 - n) * (t ^ 3 + eq) := mul_nonneg (by linarith) (by linarith)
  have l6 : 0 ≤ (1 + n) * (t ^ 3 - eq) := mul_nonneg (by linarith) (by linarith)
  have l7 : 0 ≤ (1 + n) * (t ^ 3 + eq) := mul_nonneg (by linarith) (by linarith)
  rw [abs_le]
  constructor
  · nlinarith [l2, l3, l5, l6]
  · nlinarith [l1, l3, l4, l7]

theorem ABbound (t : ℝ) (h : 0 ≤ t) : |Adev t| + t * |Bdev t| ≤ 1e-9 := by
  rcases eq_or_lt_of_le h with heq | hpos
  · rw [← heq]
    have hs : sinc 0 = 1 := by norm_num [sinc]
    norm_num [Adev, Bdev, pCoef, qCoef, hs]
  by_cases hbig : 0.0004 ≤ t
  · rw [Adev_exact t hbig, Bdev_exact t hbig]
    norm_num
  push_neg at hbig
  have ht : t ≠ 0 := ne_of_gt hpos
  obtain ⟨hεp1, hεp2⟩ := abs_le.mp (pCoef_err t hpos hbig)
  obtain ⟨hεq1, hεq2⟩ := abs_le.mp (qCoef_err t hpos hbig)
  have hpy : Real.sin t ^ 2 + Real.cos t ^ 2 = 1 := Real.sin_sq_add_cos_sq t
  have hA : Adev t = (2 * t * (1 - Real.cos t) * (pCoef t - (1 - Real.cos t) / t) +
      2 * t * Real.sin t * (qCoef t - Real.sin t / t) +
      t ^ 2 * (pCoef t - (1 - Real.cos t) / t) ^ 2 +
      t ^ 2 * (qCoef t - Real.sin t / t) ^ 2) / 4 := by
    unfold Adev
    field_simp
    ring_nf
    nlinarith [hpy, sq_nonneg t]
  have hB : Bdev t = ((1 + Real.cos t) * (pCoef t - (1 - Real.cos t) / t) -
      Real.sin t * (qCoef t - Real.sin t / t)) / 2 := by
    unfold Bdev
    field_simp
    ring_nf
    nlinarith [hpy, sq_nonneg t]
  have hAb := polyA_bound t (Real.cos t) (Real.sin t)
    (pCoef t - (1 - Real.cos t) / t) (qCoef t - Real.sin t / t) hpos (by linarith)
    (Real.neg_one_le_cos t) (Real.cos_le_one t) (Real.neg_one_le_sin t)
    (Real.sin_le_one t) hεp1 hεp2 hεq1 hεq2
  have hBb := polyB_bound t (Real.cos t) (Real.sin t)
    (pCoef t - (1 - Real.cos t) / t) (qCoef t - Real.sin t / t) hpos
    (Real.neg_one_le_cos t) (Real.cos_le_one t) (Real.neg_one_le_sin t)
    (Real.sin_le_one t) hεp1 hεp2 hεq1 hεq2
  rw [← hA] at hAb
  rw [← hB] at hBb
  have hmul : t * |Bdev t| ≤ t * (2 * t ^ 3) :=
    mul_le_mul_of_nonneg_left hBb hpos.le
  have hfinal : 4 * t ^ 4 ≤ 1e-9 := by
    nlinarith [pow_le_pow_left₀ hpos.le hbig.le 4]
  nlinarith

/-- The total angle magnitude computed by the rotation conversion. -/
noncomputable def rTheta (vx vy vz : ℝ) : ℝ :=
  Real.sqrt (vx * Real.pi * 2 * (vx * Real.pi * 2) + vy * Real.pi * 2 * (vy * Real.pi * 2) +
    vz * Real.pi * 2 * (vz * Real.pi * 2))

/-- Entrywise closeness of two operations within a real tolerance on both
components of every entry. -/
def entrywiseClose (m n : Quop) (eps : ℝ) : Prop :=
  |m.a.re - n.a.re| ≤ eps ∧ |m.a.im - n.a.im| ≤ eps ∧
  |m.b.re - n.b.re| ≤ eps ∧ |m.b.im - n.b.im| ≤ eps ∧
  |m.c.re - n.c.re| ≤ eps ∧ |m.c.im - n.c.im| ≤ eps ∧
  |m.d.re - n.d.re| ≤ eps ∧ |m.d.im - n.d.im| ≤ eps

set_option maxHeartbeats 1600000 in
theorem fromRotation_prod_entries (vx vy vz : ℝ) :
    ∃ s : ℝ, (s = 1 ∨ s = -1) ∧
      (Quop.fromRotation (vx, vy, vz)).times (Quop.fromRotation (vx, vy, vz)).adjoint =
      Quop.mk
        (Cpx.mk (1 + Adev (rTheta vx vy vz) -
          s * Bdev (rTheta vx vy vz) * (vz * Real.pi * 2)) 0)
        (Cpx.mk (-(s * Bdev (rTheta vx vy vz) * (vx * Real.pi * 2)))
          (s * Bdev (rTheta vx vy vz) * (vy * Real.pi * 2)))
        (Cpx.mk (-(s * Bdev (rTheta vx vy vz) * (vx * Real.pi * 2)))
          (-(s * Bdev (rTheta vx vy vz) * (vy * Real.pi * 2))))
        (Cpx.mk (1 + Adev (rTheta vx vy vz) +
          s * Bdev (rTheta vx vy vz) * (vz * Real.pi * 2)) 0) := by
  simp only [Quop.fromRotation, rTheta, Adev, Bdev, pCoef, qCoef]
  set x := vx * Real.pi * 2 with hxd
  set y := vy * Real.pi * 2 with hyd
  set z := vz * Real.pi * 2 with hzd
  set th := Real.sqrt (x * x + y * y + z * z) with hthd
  have hθ2 : th * th = x * x + y * y + z * z :=
    Real.mul_self_sqrt (by nlinarith [mul_self_nonneg x, mul_self_nonneg y, mul_self_nonneg z])
  by_cases hc : -11 * x + -13 * y + -17 * z ≥ 0
  · refine ⟨1, Or.inl rfl, ?_⟩
    rw [if_pos hc]
    simp only [one_mul, Quop.times, Quop.adjoint, Quop.scaledBy, Quop.plus,
      Quop.minus, Quop.IDENTITY, Quop.PAULI_X, Quop.PAULI_Y, Quop.PAULI_Z,
      Cpx.times, Cpx.plus, Cpx.minus, Cpx.conjugate, Cpx.fromReal]
    refine Quop.ext (Cpx.ext ?_ ?_) (Cpx.ext ?_ ?_) (Cpx.ext ?_ ?_) (Cpx.ext ?_ ?_)
    · linear_combination
        (-((Real.sin (th / 2) * sinc (th / 2)) ^ 2 + sinc th ^ 2) / 4) * hθ2
    · ring
    · ring
    · ring
    · ring
    · ring
    · linear_combination
        (-((Real.sin (th / 2) * sinc (th / 2)) ^ 2 + sinc th ^ 2) / 4) * hθ2
    · ring
  · refine ⟨-1, Or.inr rfl, ?_⟩
    rw [if_neg hc]
    simp only [neg_one_mul, Real.cos_neg, Real.sin_neg, Quop.times, Quop.adjoint,
      Quop.scaledBy, Quop.plus, Quop.minus, Quop.IDENTITY, Quop.PAULI_X,
      Quop.PAULI_Y, Quop.PAULI_Z, Cpx.times, Cpx.plus, Cpx.minus, Cpx.conjugate,
      Cpx.fromReal]
    refine Quop.ext (Cpx.ext ?_ ?_) (Cpx.ext ?_ ?_) (Cpx.ext ?_ ?_) (Cpx.ext ?_ ?_)
    · linear_combination
        (-((Real.sin (th / 2) * sinc (th / 2)) ^ 2 + sinc th ^ 2) / 4) * hθ2
    · ring
    · ring
    · ring
    · ring
    · ring
    · linear_combination
        (-((Real.sin (th / 2) * sinc (th / 2)) ^ 2 + sinc th ^ 2) / 4) * hθ2
    · ring

/-- C3: for every real 3-vector v, fromRotation(v) times its own adjoint is
entrywise within 1e-9 of the Identity operation on both real and imaginary
components (in fact the construction is exactly unitary away from the sinc
series branch, and the series error is far below the tolerance). -/
theorem fromRotation_approx_unitary (v : ℝ × ℝ × ℝ) :
    entrywiseClose ((Quop.fromRotation v).times (Quop.fromRotation v).adjoint)
      Quop.IDENTITY 1e-9 := by
  obtain ⟨vx, vy, vz⟩ := v
  obtain ⟨s, hs, hP⟩ := fromRotation_prod_entries vx vy vz
  rw [hP]
  have hθnn : 0 ≤ rTheta vx vy vz := Real.sqrt_nonneg _
  have hkey := ABbound (rTheta vx vy vz) hθnn
  have habs : |s| = 1 := by rcases hs with rfl | rfl <;> norm_num
  have tri : ∀ a b : ℝ, |a - b| ≤ |a| + |b| := fun a b => by
    rw [sub_eq_add_neg]
    exact (abs_add a (-b)).trans (by rw [abs_neg])
  have hcomp : ∀ w : ℝ, |w| ≤ rTheta vx vy vz →
      |s * Bdev (rTheta vx vy vz) * w| ≤ rTheta vx vy vz * |Bdev (rTheta vx vy vz)| := by
    intro w hw
    rw [abs_mul, abs_mul, habs, one_mul, mul_comm]
    exact mul_le_mul_of_nonneg_right hw (abs_nonneg _)
  have hx : |vx * Real.pi * 2| ≤ rTheta vx vy vz := by
    rw [← Real.sqrt_mul_self_eq_abs]
    apply Real.sqrt_le_sqrt
    nlinarith [mul_self_nonneg (vy * Real.pi * 2), mul_self_nonneg (vz * Real.pi * 2)]
  have hy : |vy * Real.pi * 2| ≤ rTheta vx vy vz := by
    rw [← Real.sqrt_mul_self_eq_abs]
    apply Real.sqrt_le_sqrt
    nlinarith [mul_self_nonneg (vx * Real.pi * 2), mul_self_nonneg (vz * Real.pi * 2)]
  have hz : |vz * Real.pi * 2| ≤ rTheta vx vy vz := by
    rw [← Real.sqrt_mul_self_eq_abs]
    apply Real.sqrt_le_sqrt
    nlinarith [mul_self_nonneg (vx * Real.pi * 2), mul_self_nonneg (vy * Real.pi * 2)]
  have hAkey : |Adev (rTheta vx vy vz)| +
      rTheta vx vy vz * |Bdev (rTheta vx vy vz)| ≤ 1e-9 := hkey
  have hdiag1 : |1 + Adev (rTheta vx vy vz) -
      s * Bdev (rTheta vx vy vz) * (vz * Real.pi * 2) - 1| ≤ 1e-9 := by
    have h1 : (1 : ℝ) + Adev (rTheta vx vy vz) -
        s * Bdev (rTheta vx vy vz) * (vz * Real.pi * 2) - 1 =
        Adev (rTheta vx vy vz) - s * Bdev (rTheta vx vy vz) * (vz * Real.pi * 2) := by
      ring
    rw [h1]
    exact (tri _ _).trans (by linarith [hcomp _ hz])
  have hdiag2 : |1 + Adev (rTheta vx vy vz) +
      s * Bdev (rTheta vx vy vz) * (vz * Real.pi * 2) - 1| ≤ 1e-9 := by
    have h1 : (1 : ℝ) + Adev (rTheta vx vy vz) +
        s * Bdev (rTheta vx vy vz) * (vz * Real.pi * 2) - 1 =
        Adev (rTheta vx vy vz) - (-(s * Bdev (rTheta vx vy vz) * (vz * Real.pi * 2))) := by
      ring
    rw [h1]
    refine (tri _ _).trans ?_
    rw [abs_neg]
    linarith [hcomp _ hz]
  have hoffx : |(-(s * Bdev (rTheta vx vy vz) * (vx * Real.pi * 2)))| ≤ 1e-9 := by
    rw [abs_neg]
    have := hcomp _ hx
    have hA0 : 0 ≤ |Adev (rTheta vx vy vz)| := abs_nonneg _
    linarith
  have hoffy : |s * Bdev (rTheta vx vy vz) * (vy * Real.pi * 2)| ≤ 1e-9 := by
    have := hcomp _ hy
    have hA0 : 0 ≤ |Adev (rTheta vx vy vz)| := abs_nonneg _
    linarith
  have hoffyn : |(-(s * Bdev (rTheta vx vy vz) * (vy * Real.pi * 2)))| ≤ 1e-9 := by
    rw [abs_neg]
    exact hoffy
  refine ⟨?_, ?_, ?_, ?_, ?_, ?_, ?_, ?_⟩ <;>
    simp only [Quop.IDENTITY, Cpx.fromReal] <;>
    first
      | simpa using hdiag1
      | simpa using hdiag2
      | simpa using hoffx
      | simpa using hoffy
      | simpa using hoffyn
      | norm_num

end Quirk
